import Mathlib

/-!
Verification development for the loadout skill server. Data model,
operations and algorithms are shallowly embedded from the TypeScript
sources (parser.ts, discovery.ts, resources.ts, tools.ts). Strings are
modelled as Lean strings, JavaScript string primitives (split, slice,
includes, trim, parseInt) and Node posix path primitives (normalize,
basename, extname, dirname, join, resolve) are given executable
definitions mirroring their documented semantics on ASCII input.
-/

namespace Loadout

/-! ## JavaScript string primitives over character lists -/

/-- JavaScript String.prototype.split with a single-character separator.
The empty string yields a single empty segment, as in JavaScript. -/
def splitChar (sep : Char) : List Char → List (List Char)
  | [] => [[]]
  | c :: rest =>
    match splitChar sep rest with
    | [] => if c = sep then [[], []] else [[c]]
    | seg :: segs => if c = sep then [] :: seg :: segs else (c :: seg) :: segs

/-- JavaScript String.prototype.includes restricted to list form: does
sub occur contiguously inside l. -/
def listIncludes (sub : List Char) : List Char → Bool
  | [] => sub.isEmpty
  | c :: rest => sub.isPrefixOf (c :: rest) || listIncludes sub rest

/-- String containment, as used by includes in the source. -/
def jsIncludes (s sub : String) : Bool :=
  listIncludes sub.data s.data

/-- String prefix test, as used by startsWith in the source. -/
def jsStartsWith (s p : String) : Bool :=
  p.data.isPrefixOf s.data

/-- JavaScript String.prototype.split with a one-character separator,
on strings. -/
def jsSplit (sep : Char) (s : String) : List String :=
  (splitChar sep s.data).map List.asString

/-- ASCII lower-casing, as toLowerCase behaves on ASCII input. -/
def asciiLower (s : String) : String :=
  ⟨s.data.map (fun c => if 'A' ≤ c ∧ c ≤ 'Z' then Char.ofNat (c.toNat + 32) else c)⟩

/-- ASCII whitespace predicate used to model the trim and parseInt
whitespace handling. -/
def isJsWhitespace (c : Char) : Bool :=
  c = ' ' || c = '\t' || c = '\n' || c = '\r' || c = '\x0b' || c = '\x0c'

/-- JavaScript String.prototype.trim on ASCII whitespace. -/
def jsTrim (s : String) : String :=
  ⟨((s.data.dropWhile isJsWhitespace).reverse.dropWhile isJsWhitespace).reverse⟩

/-- JavaScript Array.prototype.slice with integer bounds and the usual
clamping of negative and out-of-range indices. -/
def jsSliceList {α : Type} (l : List α) (s e : Int) : List α :=
  let len : Int := l.length
  let s0 : Nat := (if s < 0 then max (len + s) 0 else min s len).toNat
  let e0 : Nat := (if e < 0 then max (len + e) 0 else min e len).toNat
  (l.drop s0).take (e0 - s0)

/-! ## Node posix path primitives -/

/-- Segment resolution step of posix path normalization: drops empty
and single-dot segments, cancels a double-dot against the previous
segment, keeps leading double-dots on relative paths. The first list
argument is the already-resolved prefix in reverse order. -/
def normSegs (isAbs : Bool) : List (List Char) → List (List Char) → List (List Char)
  | acc, [] => acc.reverse
  | acc, seg :: rest =>
    if seg = [] ∨ seg = ['.'] then normSegs isAbs acc rest
    else if seg = ['.', '.'] then
      match acc with
      | [] => if isAbs then normSegs isAbs [] rest else normSegs isAbs [['.', '.']] rest
      | top :: acc2 =>
        if top = ['.', '.'] then normSegs isAbs (seg :: top :: acc2) rest
        else normSegs isAbs acc2 rest
    else normSegs isAbs (seg :: acc) rest

/-- Node path.posix.normalize. -/
def nodeNormalize (s : String) : String :=
  let cs := s.data
  if cs.isEmpty then "."
  else
    let isAbs := cs.head? = some '/'
    let trailing := cs.getLast? = some '/'
    let core := List.intercalate ['/'] (normSegs isAbs [] (splitChar '/' cs))
    if core.isEmpty then
      (if isAbs then "/" else if trailing then "./" else ".")
    else
      let withTrail := if trailing then core ++ ['/'] else core
      ⟨if isAbs then '/' :: withTrail else withTrail⟩

/-- Node path.posix.basename: the final path segment, with trailing
separators stripped. -/
def nodeBasename (s : String) : String :=
  ⟨(((s.data.reverse.dropWhile (fun c => c = '/')).takeWhile (fun c => c ≠ '/')).reverse)⟩

/-- Index of the last occurrence of a character, if any. -/
def lastIdxOf (c : Char) (l : List Char) : Option Nat :=
  match l.reverse.findIdx? (fun x => x = c) with
  | some j => some (l.length - 1 - j)
  | none => none

/-- Node path.posix.extname: the suffix of the basename from its last
dot, empty when there is no usable dot (no dot, a leading dot only, or
the special directory name consisting of two dots). -/
def nodeExtname (s : String) : String :=
  let b := (nodeBasename s).data
  if b = ['.', '.'] then ""
  else
    match lastIdxOf '.' b with
    | none => ""
    | some 0 => ""
    | some j => ⟨b.drop j⟩

/-- Node path.posix.join of two parts: empty parts are dropped, the
rest are joined with a separator and normalized. -/
def nodeJoin (a b : String) : String :=
  let parts := [a, b].filter (fun p => p ≠ "")
  if parts.isEmpty then "."
  else nodeNormalize (String.intercalate "/" parts)

/-- Node path.posix.resolve of a base directory and a path, for the
case the program exercises (the base is an absolute directory; when
the second argument is itself absolute the base is ignored). -/
def nodeResolve (base p : String) : String :=
  let joined := if jsStartsWith p "/" then p else base ++ "/" ++ p
  let n := nodeNormalize joined
  if n.data.length > 1 ∧ n.data.getLast? = some '/' then ⟨n.data.dropLast⟩ else n

/-- Node path.posix.dirname. -/
def nodeDirname (s : String) : String :=
  let cs := s.data
  let hasRoot := cs.head? = some '/'
  let r2 := (cs.reverse.dropWhile (fun c => c = '/')).dropWhile (fun c => c ≠ '/')
  match r2 with
  | [] => if hasRoot then "/" else "."
  | _ :: rest =>
    if rest.isEmpty then "/"
    else if hasRoot ∧ rest = ['/'] then "//"
    else ⟨rest.reverse⟩

/-! ## Script path validation (tools.ts, validateScriptPath) -/

/-- Allowed script file extensions for safety, from tools.ts. -/
def ALLOWED_EXTENSIONS : List String := [".sh", ".js", ".ts", ".py"]

/-- Result shape of validateScriptPath in tools.ts. -/
structure ValidationResult where
  valid : Bool
  error : Option String
  fullPath : Option String
deriving DecidableEq, Repr

/-- Embedding of validateScriptPath from tools.ts: normalize the
requested name and reject it when the normalized form contains a
double-dot, starts with a slash, or contains a backslash; then check
the extension allow-list; then resolve the basename of the requested
name inside the scripts directory of the skill and check the resolved
path still starts with that directory. -/
def validateScriptPath (scriptName skillPath : String) : ValidationResult :=
  let normalizedScript := nodeNormalize scriptName
  if jsIncludes normalizedScript ".." || jsStartsWith normalizedScript "/" ||
      jsIncludes normalizedScript "\\" then
    { valid := false, error := some "Invalid script path: path traversal not allowed",
      fullPath := none }
  else
    let ext := asciiLower (nodeExtname scriptName)
    if ¬ ALLOWED_EXTENSIONS.contains ext then
      { valid := false,
        error := some ("Invalid script extension: " ++ ext ++ ". Allowed extensions: " ++
          String.intercalate ", " ALLOWED_EXTENSIONS),
        fullPath := none }
    else
      let scriptsDir := nodeJoin skillPath "scripts"
      let fullPath := nodeResolve scriptsDir (nodeBasename scriptName)
      if ¬ jsStartsWith fullPath scriptsDir then
        { valid := false, error := some "Invalid script path: must be within scripts directory",
          fullPath := none }
      else
        { valid := true, error := none, fullPath := some fullPath }

/-- Outcome of the run_skill_script request gate, up to the point a
child process would be spawned. -/
inductive RunGateOutcome where
  | rejected (msg : String)
  | execute (fullPath : String)
deriving DecidableEq, Repr

/-- Minimal registry view used by the gate: skill name paired with the
directory path of the skill. -/
structure SkillPathEntry where
  name : String
  path : String
deriving DecidableEq, Repr

/-- Embedding of the validation portion of run_skill_script from
tools.ts: look up the skill, validate the script path, and either
reject with the validation error or proceed towards spawning the
resolved path. The on-disk existence check and the spawn itself are
input/output actions past this gate. -/
def runSkillScriptGate (registry : List SkillPathEntry) (skillName scriptName : String) :
    RunGateOutcome :=
  match registry.find? (fun e => e.name == skillName) with
  | none => .rejected ("Skill not found: " ++ skillName)
  | some skill =>
    let v := validateScriptPath scriptName skill.path
    if v.valid then .execute (v.fullPath.getD "") else .rejected (v.error.getD "")

/-- Wording of the claim, first clause: the requested name contains a
parent-directory traversal segment, reading segments as the pieces
between separators. -/
def hasTraversalSegment (s : String) : Bool :=
  (splitChar '/' s.data).any (fun seg => seg = ['.', '.'])

/-- Wording of the claim, second clause: the requested name is an
absolute path. -/
def isAbsolutePath (s : String) : Bool :=
  jsStartsWith s "/"

/-- Wording of the claim, third clause: the requested name contains a
directory separator. -/
def hasDirSeparator (s : String) : Bool :=
  s.data.any (fun c => c = '/' || c = '\\')

/-- Claim C1, counterexample: a script name with a directory separator
(foo/bar.sh) and one with a parent-directory traversal segment
(a/../b.sh) both pass validation, so the request is not rejected and
proceeds towards spawning a process; the name is silently reduced to
its basename instead. -/
theorem validateScriptPath_nested_name_accepted :
    hasDirSeparator "foo/bar.sh" = true ∧
    hasTraversalSegment "a/../b.sh" = true ∧
    (validateScriptPath "foo/bar.sh" "/skills/demo").valid = true ∧
    (validateScriptPath "a/../b.sh" "/skills/demo").valid = true ∧
    runSkillScriptGate [⟨"demo", "/skills/demo"⟩] "demo" "foo/bar.sh" =
      .execute "/skills/demo/scripts/bar.sh" := by
  decide

/-- Claim C1, amended: rejection is decided on the normalized script
name: when the normalized name contains a double-dot, or starts with a
separator, or contains a backslash, validation fails and the gate
rejects the request before any process is spawned. A name containing a
forward-slash separator whose normalized form is clean is not
rejected: it is reduced to its basename, so every request that passes
validation resolves to a single file directly inside the scripts
directory (the resolved path is the basename, which contains no
separator, resolved against the scripts directory). -/
theorem validateScriptPath_normalized_gate (scriptName skillPath : String) :
    (jsIncludes (nodeNormalize scriptName) ".." = true ∨
     jsStartsWith (nodeNormalize scriptName) "/" = true ∨
     jsIncludes (nodeNormalize scriptName) "\\" = true →
       (validateScriptPath scriptName skillPath).valid = false) ∧
    ((validateScriptPath scriptName skillPath).valid = true →
       (validateScriptPath scriptName skillPath).fullPath =
         some (nodeResolve (nodeJoin skillPath "scripts") (nodeBasename scriptName)) ∧
       ∀ c ∈ (nodeBasename scriptName).data, c ≠ '/') ∧
    (∀ (registry : List SkillPathEntry) (skillName : String) (entry : SkillPathEntry),
       registry.find? (fun e => e.name == skillName) = some entry →
       (validateScriptPath scriptName entry.path).valid = false →
       runSkillScriptGate registry skillName scriptName =
         .rejected ((validateScriptPath scriptName entry.path).error.getD "")) := by
  refine ⟨?_, ?_, ?_⟩
  · intro h
    have hcond : (jsIncludes (nodeNormalize scriptName) ".." ||
        jsStartsWith (nodeNormalize scriptName) "/" ||
        jsIncludes (nodeNormalize scriptName) "\\") = true := by
      rcases h with h | h | h <;> simp [h]
    simp only [validateScriptPath, hcond, if_pos]
  · intro hv
    have hbase : ∀ c ∈ (nodeBasename scriptName).data, c ≠ '/' := by
      intro c hc
      simp only [nodeBasename] at hc
      have hc2 := List.mem_reverse.mp hc
      have := List.mem_takeWhile_imp hc2
      simpa using this
    refine ⟨?_, hbase⟩
    by_cases h1 : (jsIncludes (nodeNormalize scriptName) ".." ||
        jsStartsWith (nodeNormalize scriptName) "/" ||
        jsIncludes (nodeNormalize scriptName) "\\") = true
    · simp only [validateScriptPath, h1, if_true] at hv
      cases hv
    · by_cases h2 : ALLOWED_EXTENSIONS.contains (asciiLower (nodeExtname scriptName))
      · by_cases h3 : jsStartsWith (nodeResolve (nodeJoin skillPath "scripts")
            (nodeBasename scriptName)) (nodeJoin skillPath "scripts")
        · simp only [validateScriptPath, h1, if_false, h2, h3]
          simp
        · simp only [validateScriptPath, h1, if_false, h2, h3] at hv
          simp at hv
      · simp only [validateScriptPath, h1, if_false, h2] at hv
        simp at hv
  · intro registry skillName entry hfind hinvalid
    simp only [runSkillScriptGate, hfind, hinvalid]
    simp [hinvalid]

/-- Witness for the amended claim C1 at concrete inputs: a traversal
name that survives normalization is rejected and the gate refuses it,
while a clean name resolves to the single file basename inside the
scripts directory. -/
theorem validateScriptPath_normalized_gate_witness :
    (validateScriptPath "../evil.sh" "/skills/demo").valid = false ∧
    ((validateScriptPath "hello.sh" "/skills/demo").fullPath =
       some (nodeResolve (nodeJoin "/skills/demo" "scripts") (nodeBasename "hello.sh")) ∧
     ∀ c ∈ (nodeBasename "hello.sh").data, c ≠ '/') ∧
    runSkillScriptGate [⟨"demo", "/skills/demo"⟩] "demo" "../evil.sh" =
      .rejected "Invalid script path: path traversal not allowed" :=
  ⟨(validateScriptPath_normalized_gate "../evil.sh" "/skills/demo").1 (Or.inl (by decide)),
   (validateScriptPath_normalized_gate "hello.sh" "/skills/demo").2.1 (by decide),
   (validateScriptPath_normalized_gate "../evil.sh" "/skills/demo").2.2
     [⟨"demo", "/skills/demo"⟩] "demo" ⟨"demo", "/skills/demo"⟩ (by decide) (by decide)⟩

/-! ## Resource URI parsing (resources.ts, parseSkillUri) -/

/-- Resource type selected by a parsed URI, from resources.ts. -/
inductive ResourceType where
  | content
  | manifest
  | section
  | code
  | references
  | scripts
  | assets
deriving DecidableEq, Repr

/-- Parsed skill URI components, from resources.ts. -/
structure ParsedSkillUri where
  name : String
  type : ResourceType
  param : Option String
deriving DecidableEq, Repr

/-- The if-chain of parseSkillUri over the non-empty segments of the
authority and path. -/
def parseSegments : List String → Option ParsedSkillUri
  | [] => none
  | [name] => some ⟨name, .content, none⟩
  | name :: resourceType :: params =>
    if resourceType = "manifest" ∧ params = [] then
      some ⟨name, .manifest, none⟩
    else if resourceType = "section" ∧ params.length = 1 then
      some ⟨name, .section, some (params.headD "")⟩
    else if resourceType = "code" ∧ params.length = 1 then
      some ⟨name, .code, some (params.headD "")⟩
    else if resourceType = "references" ∧ params.length ≥ 1 then
      some ⟨name, .references, some (String.intercalate "/" params)⟩
    else if resourceType = "scripts" ∧ params.length ≥ 1 then
      some ⟨name, .scripts, some (String.intercalate "/" params)⟩
    else if resourceType = "assets" ∧ params.length ≥ 1 then
      some ⟨name, .assets, some (String.intercalate "/" params)⟩
    else none

/-- The segments of a loadout URI: the text after the scheme, split on
separators, with empty segments discarded. -/
def uriSegments (uri : String) : List String :=
  ((splitChar '/' (uri.data.drop 10)).map List.asString).filter (fun s => s.length > 0)

/-- Embedding of parseSkillUri from resources.ts. -/
def parseSkillUri (uri : String) : Option ParsedSkillUri :=
  if ¬ jsStartsWith uri "loadout://" then none
  else parseSegments (uriSegments uri)

/-- Shape characterization of the if-chain on segment lists. -/
lemma parseSegments_eq_some_iff (segs : List String) (r : ParsedSkillUri) :
    parseSegments segs = some r ↔
      (segs = [r.name] ∧ r.type = .content ∧ r.param = none) ∨
      (segs = [r.name, "manifest"] ∧ r.type = .manifest ∧ r.param = none) ∨
      (∃ p, segs = [r.name, "section", p] ∧ r.type = .section ∧ r.param = some p) ∨
      (∃ p, segs = [r.name, "code", p] ∧ r.type = .code ∧ r.param = some p) ∨
      (∃ ps, ps ≠ [] ∧ segs = r.name :: "references" :: ps ∧ r.type = .references ∧
        r.param = some (String.intercalate "/" ps)) ∨
      (∃ ps, ps ≠ [] ∧ segs = r.name :: "scripts" :: ps ∧ r.type = .scripts ∧
        r.param = some (String.intercalate "/" ps)) ∨
      (∃ ps, ps ≠ [] ∧ segs = r.name :: "assets" :: ps ∧ r.type = .assets ∧
        r.param = some (String.intercalate "/" ps)) := by
  match segs with
  | [] => simp [parseSegments]
  | [name] =>
    constructor
    · intro h
      simp only [parseSegments, Option.some.injEq] at h
      subst h
      exact Or.inl ⟨rfl, rfl, rfl⟩
    · intro h
      rcases h with ⟨h1, h2, h3⟩ | ⟨h1, _⟩ | ⟨p, h1, _⟩ | ⟨p, h1, _⟩ |
        ⟨ps, _, h1, _⟩ | ⟨ps, _, h1, _⟩ | ⟨ps, _, h1, _⟩ <;>
          first
            | (cases h1
               cases r
               simp_all [parseSegments])
            | simp_all
  | name :: resourceType :: params =>
    constructor
    · intro h
      simp only [parseSegments] at h
      split_ifs at h with h1 h2 h3 h4 h5 h6
      · obtain ⟨hrt, hp⟩ := h1
        subst hrt hp
        cases Option.some.injEq .. ▸ h
        exact Or.inr (Or.inl ⟨rfl, rfl, rfl⟩)
      · obtain ⟨hrt, hp⟩ := h2
        subst hrt
        obtain ⟨p, rfl⟩ := List.length_eq_one.mp hp
        cases Option.some.injEq .. ▸ h
        exact Or.inr (Or.inr (Or.inl ⟨p, rfl, rfl, rfl⟩))
      · obtain ⟨hrt, hp⟩ := h3
        subst hrt
        obtain ⟨p, rfl⟩ := List.length_eq_one.mp hp
        cases Option.some.injEq .. ▸ h
        exact Or.inr (Or.inr (Or.inr (Or.inl ⟨p, rfl, rfl, rfl⟩)))
      · obtain ⟨hrt, hp⟩ := h4
        subst hrt
        cases Option.some.injEq .. ▸ h
        refine Or.inr (Or.inr (Or.inr (Or.inr (Or.inl ⟨params, ?_, rfl, rfl, rfl⟩))))
        intro hnil
        simp [hnil] at hp
      · obtain ⟨hrt, hp⟩ := h5
        subst hrt
        cases Option.some.injEq .. ▸ h
        refine Or.inr (Or.inr (Or.inr (Or.inr (Or.inr (Or.inl ⟨params, ?_, rfl, rfl, rfl⟩)))))
        intro hnil
        simp [hnil] at hp
      · obtain ⟨hrt, hp⟩ := h6
        subst hrt
        cases Option.some.injEq .. ▸ h
        refine Or.inr (Or.inr (Or.inr (Or.inr (Or.inr (Or.inr ⟨params, ?_, rfl, rfl, rfl⟩)))))
        intro hnil
        simp [hnil] at hp
    · intro h
      rcases h with ⟨h1, h2, h3⟩ | ⟨h1, h2, h3⟩ | ⟨p, h1, h2, h3⟩ | ⟨p, h1, h2, h3⟩ |
        ⟨ps, hne, h1, h2, h3⟩ | ⟨ps, hne, h1, h2, h3⟩ | ⟨ps, hne, h1, h2, h3⟩
      · cases h1
      · cases h1
        cases r
        simp_all [parseSegments]
      · cases h1
        cases r
        simp_all [parseSegments]
      · cases h1
        cases r
        simp_all [parseSegments]
      · cases h1
        cases r
        simp_all [parseSegments, List.length_pos_iff_ne_nil.mpr hne,
          Nat.one_le_iff_ne_zero]
      · cases h1
        cases r
        simp_all [parseSegments, List.length_pos_iff_ne_nil.mpr hne,
          Nat.one_le_iff_ne_zero]
      · cases h1
        cases r
        simp_all [parseSegments, List.length_pos_iff_ne_nil.mpr hne,
          Nat.one_le_iff_ne_zero]

/-- Claim C3: parseSkillUri accepts exactly the recognized shapes over
the slash-separated non-empty segments after the scheme: a lone
non-empty skill name is a content request, manifest takes no further
segment, section and code take exactly one, references, scripts and
assets take one or more (re-joined with a separator), and every other
shape, including an empty path or an unknown type, is invalid. -/
theorem parseSkillUri_shapes :
    (∀ (uri : String) (r : ParsedSkillUri),
      parseSkillUri uri = some r ↔
        jsStartsWith uri "loadout://" = true ∧
        ((uriSegments uri = [r.name] ∧ r.type = .content ∧ r.param = none) ∨
         (uriSegments uri = [r.name, "manifest"] ∧ r.type = .manifest ∧ r.param = none) ∨
         (∃ p, uriSegments uri = [r.name, "section", p] ∧ r.type = .section ∧
           r.param = some p) ∨
         (∃ p, uriSegments uri = [r.name, "code", p] ∧ r.type = .code ∧
           r.param = some p) ∨
         (∃ ps, ps ≠ [] ∧ uriSegments uri = r.name :: "references" :: ps ∧
           r.type = .references ∧ r.param = some (String.intercalate "/" ps)) ∨
         (∃ ps, ps ≠ [] ∧ uriSegments uri = r.name :: "scripts" :: ps ∧
           r.type = .scripts ∧ r.param = some (String.intercalate "/" ps)) ∨
         (∃ ps, ps ≠ [] ∧ uriSegments uri = r.name :: "assets" :: ps ∧
           r.type = .assets ∧ r.param = some (String.intercalate "/" ps)))) ∧
    (∀ (uri : String) (r : ParsedSkillUri), parseSkillUri uri = some r → r.name ≠ "") := by
  have hseg : ∀ (uri : String) (s : String), s ∈ uriSegments uri → s ≠ "" := by
    intro uri s hs hempty
    subst hempty
    have := (List.mem_filter.mp hs).2
    simp at this
  have main : ∀ (uri : String) (r : ParsedSkillUri),
      parseSkillUri uri = some r ↔
        jsStartsWith uri "loadout://" = true ∧ parseSegments (uriSegments uri) = some r := by
    intro uri r
    by_cases hpre : jsStartsWith uri "loadout://"
    · simp [parseSkillUri, hpre]
    · simp [parseSkillUri, hpre]
  constructor
  · intro uri r
    rw [main uri r, parseSegments_eq_some_iff]
  · intro uri r h
    have h2 := ((main uri r).mp h).2
    have h3 := (parseSegments_eq_some_iff _ r).mp h2
    have hname : r.name ∈ uriSegments uri := by
      rcases h3 with ⟨h1, _⟩ | ⟨h1, _⟩ | ⟨p, h1, _⟩ | ⟨p, h1, _⟩ |
        ⟨ps, _, h1, _⟩ | ⟨ps, _, h1, _⟩ | ⟨ps, _, h1, _⟩ <;> rw [h1] <;> simp
    exact hseg uri r.name hname

/-- Witness for claim C3 at concrete URIs: a section request with one
parameter parses, and its skill name is non-empty. -/
theorem parseSkillUri_shapes_witness :
    parseSkillUri "loadout://foo/section/install" =
      some ⟨"foo", .section, some "install"⟩ ∧
    ("foo" : String) ≠ "" :=
  ⟨(parseSkillUri_shapes.1 "loadout://foo/section/install"
      ⟨"foo", .section, some "install"⟩).mpr
      ⟨by decide, Or.inr (Or.inr (Or.inl ⟨"install", by decide, rfl, rfl⟩))⟩,
   parseSkillUri_shapes.2 "loadout://foo/section/install"
      ⟨"foo", .section, some "install"⟩
      ((parseSkillUri_shapes.1 "loadout://foo/section/install"
        ⟨"foo", .section, some "install"⟩).mpr
        ⟨by decide, Or.inr (Or.inr (Or.inl ⟨"install", by decide, rfl, rfl⟩))⟩)⟩

/-! ## Parsed document data model (types.ts) and manifest creation
(parser.ts, createManifest) -/

/-- Parsed YAML frontmatter of a manifest file, from types.ts. The
open metadata bag is modelled as a flat key-value list. -/
structure SkillFrontmatter where
  name : String
  description : String
  license : Option String
  version : Option String
  author : Option String
deriving DecidableEq, Repr

/-- Table of contents entry for one markdown heading, from types.ts. -/
structure TocEntry where
  level : Int
  text : String
  slug : String
  line : Int
deriving DecidableEq, Repr

/-- Extracted fenced code block, from types.ts. -/
structure CodeBlock where
  lang : Option String
  line : Int
  content : String
deriving DecidableEq, Repr

/-- Extracted markdown link, from types.ts. -/
structure Link where
  text : String
  href : String
  isInternal : Bool
deriving DecidableEq, Repr

/-- Categorized file listings of the three fixed skill
subdirectories, from types.ts. -/
structure SkillFiles where
  scripts : List String
  references : List String
  assets : List String
deriving DecidableEq, Repr

/-- Fully parsed skill document, from types.ts. -/
structure ParsedSkill where
  frontmatter : SkillFrontmatter
  body : String
  toc : List TocEntry
  codeBlocks : List CodeBlock
  links : List Link
  files : SkillFiles
deriving DecidableEq, Repr

/-- Manifest entry for a code block: the preview replaces the full
content, from types.ts. -/
structure CodeBlockPreview where
  lang : Option String
  line : Int
  preview : String
deriving DecidableEq, Repr

/-- JSON-serializable skill manifest, from types.ts. -/
structure SkillManifest where
  name : String
  description : String
  license : Option String
  version : Option String
  author : Option String
  toc : List TocEntry
  codeBlocks : List CodeBlockPreview
  links : List Link
  files : SkillFiles
deriving DecidableEq, Repr

/-- Embedding of createManifest from parser.ts: copy the frontmatter
fields and structure lists and truncate each code block content to its
first 100 characters. -/
def createManifest (parsed : ParsedSkill) : SkillManifest :=
  { name := parsed.frontmatter.name
    description := parsed.frontmatter.description
    license := parsed.frontmatter.license
    version := parsed.frontmatter.version
    author := parsed.frontmatter.author
    toc := parsed.toc
    codeBlocks := parsed.codeBlocks.map (fun block =>
      { lang := block.lang, line := block.line, preview := ⟨block.content.data.take 100⟩ })
    links := parsed.links
    files := parsed.files }

/-- Claim C7: every manifest code block preview is the first 100
characters of the corresponding block content, is a prefix of it, is
never longer than 100 characters, and is shorter than 100 exactly when
the block itself is shorter than 100. -/
theorem createManifest_preview_spec (parsed : ParsedSkill) (i : Nat)
    (h : i < parsed.codeBlocks.length) :
    ∃ h2 : i < (createManifest parsed).codeBlocks.length,
      ((createManifest parsed).codeBlocks.get ⟨i, h2⟩).preview.data =
        (parsed.codeBlocks.get ⟨i, h⟩).content.data.take 100 ∧
      ((createManifest parsed).codeBlocks.get ⟨i, h2⟩).preview.data <+:
        (parsed.codeBlocks.get ⟨i, h⟩).content.data ∧
      ((createManifest parsed).codeBlocks.get ⟨i, h2⟩).preview.data.length ≤ 100 ∧
      (((createManifest parsed).codeBlocks.get ⟨i, h2⟩).preview.data.length < 100 ↔
        (parsed.codeBlocks.get ⟨i, h⟩).content.data.length < 100) := by
  have h2 : i < (createManifest parsed).codeBlocks.length := by
    simpa [createManifest] using h
  refine ⟨h2, ?_, ?_, ?_, ?_⟩
  · simp [createManifest]
  · simp only [createManifest, List.get_eq_getElem, List.getElem_map]
    exact List.take_prefix 100 _
  · simp [createManifest, List.length_take]
  · simp only [createManifest, List.get_eq_getElem, List.getElem_map, List.length_take]
    omega

/-- Concrete two-block parsed document used by the C7 witness. -/
def demoParsedSkill : ParsedSkill :=
  { frontmatter :=
      { name := "demo"
        description := "d"
        license := none
        version := none
        author := none }
    body := ""
    toc := []
    codeBlocks := [{ lang := some "sh", line := 3, content := "echo hi" },
      { lang := none, line := 9, content := "x" }]
    links := []
    files := { scripts := [], references := [], assets := [] } }

/-- Witness for claim C7 at a concrete two-block document. -/
theorem createManifest_preview_spec_witness :
    (0 : Nat) < demoParsedSkill.codeBlocks.length ∧
    ∃ h2 : (0 : Nat) < (createManifest demoParsedSkill).codeBlocks.length,
      ((createManifest demoParsedSkill).codeBlocks.get ⟨0, h2⟩).preview.data =
        (demoParsedSkill.codeBlocks.get ⟨0, by decide⟩).content.data.take 100 ∧
      ((createManifest demoParsedSkill).codeBlocks.get ⟨0, h2⟩).preview.data <+:
        (demoParsedSkill.codeBlocks.get ⟨0, by decide⟩).content.data ∧
      ((createManifest demoParsedSkill).codeBlocks.get ⟨0, h2⟩).preview.data.length ≤ 100 ∧
      (((createManifest demoParsedSkill).codeBlocks.get ⟨0, h2⟩).preview.data.length < 100 ↔
        (demoParsedSkill.codeBlocks.get ⟨0, by decide⟩).content.data.length < 100) :=
  ⟨by decide, createManifest_preview_spec demoParsedSkill 0 (by decide)⟩

/-! ## Script execution result shaping (tools.ts, executeScript) -/

/-- Structured result of one script run, from types.ts. -/
structure ScriptResult where
  stdout : String
  stderr : String
  exitCode : Option Int
deriving DecidableEq, Repr

/-- Terminal event of the spawned child process: either the close
event with the exit code reported by the operating system, or the
error event raised when spawning fails. Wall-clock behaviour enters
through the flag recording whether the timeout fired before close. -/
inductive ProcTermination where
  | closed (code : Option Int)
  | spawnError (msg : String)
deriving DecidableEq, Repr

/-- Marker appended to standard error on timeout, from tools.ts. -/
def timeoutMarker : String := "[Script execution timed out]"

/-- Embedding of the close and error handlers of executeScript in
tools.ts: the captured output streams are combined with the terminal
event into a structured result; a run whose timeout fired resolves
with a null exit code and the timeout marker appended to standard
error, a normal close resolves with the real exit code and untouched
streams, and a spawn failure resolves with a null exit code and the
underlying message appended to standard error. -/
def executeScript (stdout stderr : String) (timedOut : Bool)
    (term : ProcTermination) : ScriptResult :=
  match term with
  | .closed code =>
    if timedOut then
      { stdout := stdout, stderr := stderr ++ "\n" ++ timeoutMarker, exitCode := none }
    else
      { stdout := stdout, stderr := stderr, exitCode := code }
  | .spawnError msg =>
    { stdout := stdout
      stderr := stderr ++ "\n[Script execution error: " ++ msg ++ "]"
      exitCode := none }

/-- Containment in list form agrees with the infix relation. -/
lemma listIncludes_contains_iff (sub l : List Char) :
    listIncludes sub l = true ↔ sub <:+: l := by
  induction l with
  | nil =>
    simp [listIncludes, List.isEmpty_iff]
  | cons c rest ih =>
    simp only [listIncludes, Bool.or_eq_true, ih, List.infix_cons_iff,
      List.isPrefixOf_iff_prefix]

/-- String containment agrees with the infix relation on character
data. -/
lemma jsIncludes_contains_iff (s sub : String) :
    jsIncludes s sub = true ↔ sub.data <:+: s.data :=
  listIncludes_contains_iff sub.data s.data

/-- Claim C5: every run yields a structured result: a timed-out run
reports a null exit code and a timeout marker in standard error, a
normal close reports the real exit code with standard error unchanged
(so no timeout marker appears unless the script itself printed one),
and a spawn failure reports a null exit code with the underlying
message in standard error. -/
theorem executeScript_outcomes (stdout stderr : String) (timedOut : Bool)
    (term : ProcTermination) :
    (∀ code, term = .closed code → timedOut = true →
      (executeScript stdout stderr timedOut term).exitCode = none ∧
      jsIncludes (executeScript stdout stderr timedOut term).stderr timeoutMarker = true) ∧
    (∀ code, term = .closed code → timedOut = false →
      executeScript stdout stderr timedOut term =
        { stdout := stdout, stderr := stderr, exitCode := code }) ∧
    (∀ msg, term = .spawnError msg →
      (executeScript stdout stderr timedOut term).exitCode = none ∧
      jsIncludes (executeScript stdout stderr timedOut term).stderr
        ("[Script execution error: " ++ msg ++ "]") = true) := by
  refine ⟨?_, ?_, ?_⟩
  · rintro code rfl rfl
    refine ⟨rfl, ?_⟩
    have : timeoutMarker.data <:+: (stderr ++ "\n" ++ timeoutMarker).data := by
      have hsuf : timeoutMarker.data <:+ (stderr ++ "\n" ++ timeoutMarker).data := by
        refine ⟨(stderr ++ "\n").data, ?_⟩
        simp [String.data_append]
      exact hsuf.isInfix
    exact (jsIncludes_contains_iff _ _).mpr this
  · rintro code rfl rfl
    rfl
  · rintro msg rfl
    refine ⟨rfl, ?_⟩
    have hsuf : ("[Script execution error: " ++ msg ++ "]").data <:+
        (stderr ++ "\n[Script execution error: " ++ msg ++ "]").data := by
      refine ⟨stderr.data ++ "\n".data, ?_⟩
      simp [String.data_append]
    exact (jsIncludes_contains_iff _ _).mpr hsuf.isInfix

/-- Witness for claim C5 at concrete runs: a timed-out run, a clean
exit with code 3, and a missing-interpreter spawn failure. -/
theorem executeScript_outcomes_witness :
    ((executeScript "out" "err" true (.closed none)).exitCode = none ∧
      jsIncludes (executeScript "out" "err" true (.closed none)).stderr
        timeoutMarker = true) ∧
    executeScript "out" "err" false (.closed (some 3)) =
      { stdout := "out", stderr := "err", exitCode := some 3 } ∧
    ((executeScript "out" "err" false (.spawnError "ENOENT")).exitCode = none ∧
      jsIncludes (executeScript "out" "err" false (.spawnError "ENOENT")).stderr
        ("[Script execution error: " ++ "ENOENT" ++ "]") = true) :=
  ⟨(executeScript_outcomes "out" "err" true (.closed none)).1 none rfl rfl,
   (executeScript_outcomes "out" "err" false (.closed (some 3))).2.1 (some 3) rfl rfl,
   (executeScript_outcomes "out" "err" false (.spawnError "ENOENT")).2.2 "ENOENT" rfl⟩

/-! ## Code block resolution (resources.ts, readResource, code case) -/

/-- Value of a decimal digit character, if it is one. -/
def digitVal (c : Char) : Option Nat :=
  if '0' ≤ c ∧ c ≤ '9' then some (c.toNat - '0'.toNat) else none

/-- Accumulate the leading run of decimal digits. -/
def takeDigits : List Char → Nat → Nat → (Nat × Nat)
  | [], acc, count => (acc, count)
  | c :: rest, acc, count =>
    match digitVal c with
    | some d => takeDigits rest (acc * 10 + d) (count + 1)
    | none => (acc, count)

/-- JavaScript parseInt with radix 10: skip leading whitespace, read
an optional sign, then the leading run of decimal digits, ignoring any
trailing characters; no digits at all gives NaN, modelled as none. -/
def jsParseInt10 (s : String) : Option Int :=
  let cs := s.data.dropWhile isJsWhitespace
  let (sign, cs2) : Int × List Char :=
    match cs with
    | '-' :: rest => (-1, rest)
    | '+' :: rest => (1, rest)
    | rest => (1, rest)
  let (value, count) := takeDigits cs2 0 0
  if count = 0 then none else some (sign * value)

/-- The error message of the code case of readResource in
resources.ts, naming the valid index range. -/
def invalidIndexMsg (param : String) (blockCount : Nat) : String :=
  "Invalid code block index: " ++ param ++ ". Valid range: 0-" ++
    toString ((blockCount : Int) - 1)

/-- Embedding of the code case of readResource from resources.ts:
parse the parameter as a radix-10 integer and serve the indexed block
content, or fail with the message naming the valid range when the
parameter is NaN or out of range. -/
def readCodeBlock (param : String) (codeBlocks : List CodeBlock) : Except String String :=
  match jsParseInt10 param with
  | none => .error (invalidIndexMsg param codeBlocks.length)
  | some index =>
    if h : index < 0 ∨ (codeBlocks.length : Int) ≤ index then
      .error (invalidIndexMsg param codeBlocks.length)
    else
      .ok (codeBlocks.get ⟨index.toNat, by omega⟩).content

/-- Claim C6: resolving a code block fails with the error naming the
valid range 0 to blockCount - 1 exactly when the parameter does not
parse as an integer inside the range, and succeeds on the indexed
block otherwise; in particular index 5 against 2 blocks yields the
error naming the range 0-1. -/
theorem readCodeBlock_range_error (param : String) (codeBlocks : List CodeBlock) :
    (jsParseInt10 param = none ∨
     (∃ i, jsParseInt10 param = some i ∧ (i < 0 ∨ (codeBlocks.length : Int) ≤ i)) →
      readCodeBlock param codeBlocks = .error (invalidIndexMsg param codeBlocks.length)) ∧
    (∀ i (hi : jsParseInt10 param = some i) (h0 : 0 ≤ i)
      (hn : i < (codeBlocks.length : Int)),
      readCodeBlock param codeBlocks =
        .ok (codeBlocks.get ⟨i.toNat, by omega⟩).content) := by
  constructor
  · intro h
    rcases h with h | ⟨i, hi, hrange⟩
    · simp [readCodeBlock, h]
    · simp only [readCodeBlock, hi]
      rw [dif_pos hrange]
  · intro i hi h0 hn
    simp only [readCodeBlock, hi]
    rw [dif_neg (by omega)]

/-- Witness for claim C6: the concrete scenario of requesting code
block 5 of a two-block document produces the error naming the range
0-1, and requesting block 1 serves its content. -/
theorem readCodeBlock_range_error_witness :
    readCodeBlock "5" [{ lang := some "sh", line := 3, content := "echo hi" },
        { lang := none, line := 9, content := "x" }] =
      .error "Invalid code block index: 5. Valid range: 0-1" ∧
    readCodeBlock "1" [{ lang := some "sh", line := 3, content := "echo hi" },
        { lang := none, line := 9, content := "x" }] = .ok "x" :=
  ⟨(readCodeBlock_range_error "5" _).1
      (Or.inr ⟨5, by decide, Or.inr (by decide)⟩),
   (readCodeBlock_range_error "1" _).2 1 (by decide) (by decide) (by decide)⟩

/-! ## Discovery engine (discovery.ts) -/

/-- One discovered skill record, from types.ts. -/
structure DiscoveredSkill where
  name : String
  description : String
  path : String
  skillMdPath : String
  parsed : Option ParsedSkill
deriving DecidableEq, Repr

/-- Lifecycle events emitted by the discovery engine, from
discovery.ts. -/
inductive DiscEvent where
  | discovered (skill : DiscoveredSkill)
  | updated (skill : DiscoveredSkill) (previous : Option DiscoveredSkill)
  | removed (name : String) (path : String)
  | errored (msg : String)
deriving DecidableEq, Repr

/-- The in-memory registry: insertion-ordered name-to-record entries,
modelling the Map held by SkillDiscovery. -/
abbrev Registry := List (String × DiscoveredSkill)

/-- Map.get: the value of the first entry carrying the key. -/
def regGet (reg : Registry) (k : String) : Option DiscoveredSkill :=
  (List.find? (fun e => e.1 == k) reg).map (fun e => e.2)

/-- Map.set: overwrite the entry carrying the key in place, or append
a new entry. -/
def regSet (reg : Registry) (k : String) (v : DiscoveredSkill) : Registry :=
  if (List.any reg (fun e => e.1 == k)) then
    List.map (fun e => if e.1 == k then (k, v) else e) reg
  else
    List.append reg [(k, v)]

/-- Map.delete: drop the first entry carrying the key. -/
def regDelete (reg : Registry) (k : String) : Registry :=
  List.eraseP (fun e => e.1 == k) reg

/-- Embedding of the unlink handler installed by watch in
discovery.ts: on deletion of a manifest file, the first registry entry
whose manifest path matches is deleted by name and one removed event
carrying the freed name and the directory of the deleted file is
emitted; when no entry matches, nothing happens. -/
def handleUnlink (filePath : String) (reg : Registry) : Registry × List DiscEvent :=
  let skillDir := nodeDirname filePath
  match List.find? (fun e => e.2.skillMdPath == filePath) reg with
  | some e => (regDelete reg e.1, [.removed e.1 skillDir])
  | none => (reg, [])

/-- Result of examining one candidate subdirectory during a scan:
either the manifest file is missing (skipped silently), or reading or
parsing it failed (an error event), or it produced a skill record. -/
inductive Candidate where
  | missing
  | failed (msg : String)
  | found (skill : DiscoveredSkill)
deriving DecidableEq, Repr

/-- Embedding of the per-candidate step of scanPath in discovery.ts: a
found record with a non-empty name is inserted and one discovered
event is emitted, a found record with an empty name is skipped, a
failed candidate emits one error event, and a missing manifest is
skipped silently. -/
def processCandidate (reg : Registry) (cand : Candidate) : Registry × List DiscEvent :=
  match cand with
  | .missing => (reg, [])
  | .failed msg => (reg, [.errored msg])
  | .found skill =>
    if skill.name = "" then (reg, [])
    else (regSet reg skill.name skill, [.discovered skill])

/-- Embedding of scanPath in discovery.ts: candidates are processed in
order, threading the registry and concatenating events. -/
def scanPath (reg : Registry) : List Candidate → Registry × List DiscEvent
  | [] => (reg, [])
  | cand :: rest =>
    let step := processCandidate reg cand
    let restResult := scanPath step.1 rest
    (restResult.1, step.2 ++ restResult.2)

/-- Embedding of the add handler installed by watch in discovery.ts:
an added manifest with a non-empty name is upserted, emitting updated
with the previous record when the name already existed and discovered
otherwise. -/
def handleAdd (reg : Registry) (cand : Candidate) : Registry × List DiscEvent :=
  match cand with
  | .missing => (reg, [])
  | .failed msg => (reg, [.errored msg])
  | .found skill =>
    if skill.name = "" then (reg, [])
    else
      match regGet reg skill.name with
      | some previous =>
        (regSet reg skill.name skill, [.updated skill (some previous)])
      | none =>
        (regSet reg skill.name skill, [.discovered skill])

/-- The event a scan candidate contributes, for the claim statement. -/
def scanEventOf (cand : Candidate) : Option DiscEvent :=
  match cand with
  | .missing => none
  | .failed msg => some (.errored msg)
  | .found skill => if skill.name = "" then none else some (.discovered skill)

/-- A find over a list whose only match is a given member returns
that member. -/
lemma find?_eq_some_of_mem_unique {α : Type} (p : α → Bool) (l : List α) (x : α)
    (hmem : x ∈ l) (hx : p x = true) (huniq : ∀ y ∈ l, p y = true → y = x) :
    l.find? p = some x := by
  induction l with
  | nil => cases hmem
  | cons a rest ih =>
    by_cases ha : p a = true
    · have hax : a = x := huniq a (List.mem_cons_self a rest) ha
      subst hax
      simp [List.find?_cons_of_pos _ ha]
    · have hne : x ≠ a := fun h => ha (h ▸ hx)
      have hmem2 : x ∈ rest := by
        rcases List.mem_cons.mp hmem with h | h
        · exact absurd h hne
        · exact h
      rw [List.find?_cons_of_neg _ (by simpa using ha)]
      exact ih hmem2 (fun y hy hpy => huniq y (List.mem_cons_of_mem a hy) hpy)

/-- Registry deletion drops a matching head entry. -/
lemma regDelete_cons_pos (a : String) (v : DiscoveredSkill) (rest : Registry) :
    regDelete ((a, v) :: rest) a = rest := by
  simp [regDelete, List.eraseP_cons]

/-- Registry deletion passes over a non-matching head entry. -/
lemma regDelete_cons_neg (a k : String) (v : DiscoveredSkill) (rest : Registry)
    (h : a ≠ k) : regDelete ((a, v) :: rest) k = (a, v) :: regDelete rest k := by
  simp [regDelete, List.eraseP_cons, h]

/-- Registry lookup finds a matching head entry. -/
lemma regGet_cons_pos (a : String) (v : DiscoveredSkill) (rest : Registry) :
    regGet ((a, v) :: rest) a = some v := by
  simp [regGet, List.find?_cons]

/-- Registry lookup passes over a non-matching head entry. -/
lemma regGet_cons_neg (a k : String) (v : DiscoveredSkill) (rest : Registry)
    (h : a ≠ k) : regGet ((a, v) :: rest) k = regGet rest k := by
  have hpa : (((a, v) : String × DiscoveredSkill).1 == k) = false := by simpa using h
  simp [regGet, List.find?_cons, hpa]

/-- Deleting a key from a registry with distinct keys makes that key
absent. -/
lemma regGet_regDelete_self (reg : Registry) (k : String)
    (hnodup : (List.map Prod.fst reg).Nodup) :
    regGet (regDelete reg k) k = none := by
  induction reg with
  | nil => rfl
  | cons e rest ih =>
    obtain ⟨a, v⟩ := e
    have hnodup2 : (List.map Prod.fst rest).Nodup := (List.nodup_cons.mp hnodup).2
    by_cases hak : a = k
    · subst hak
      rw [regDelete_cons_pos]
      have hnotin : a ∉ List.map Prod.fst rest := (List.nodup_cons.mp hnodup).1
      have hnone : List.find? (fun e => e.1 == a) rest = none := by
        rw [List.find?_eq_none]
        intro x hx hbeq
        exact hnotin (beq_iff_eq.mp hbeq ▸ List.mem_map_of_mem Prod.fst hx)
      simp [regGet, hnone]
    · rw [regDelete_cons_neg a k v rest hak, regGet_cons_neg a k v (regDelete rest k) hak]
      exact ih hnodup2

/-- Deleting one key leaves lookups of every other key unchanged. -/
lemma regGet_regDelete_other (reg : Registry) (k k2 : String) (h : k2 ≠ k) :
    regGet (regDelete reg k) k2 = regGet reg k2 := by
  induction reg with
  | nil => rfl
  | cons e rest ih =>
    obtain ⟨a, v⟩ := e
    by_cases hak : a = k
    · subst hak
      rw [regDelete_cons_pos, regGet_cons_neg a k2 v rest (fun hc => h hc.symm)]
    · rw [regDelete_cons_neg a k v rest hak]
      by_cases hak2 : a = k2
      · subst hak2
        rw [regGet_cons_pos, regGet_cons_pos]
      · rw [regGet_cons_neg a k2 v _ hak2, regGet_cons_neg a k2 v rest hak2]
        exact ih

/-- Claim C8: when a watched manifest file is deleted of which exactly
one registry record holds the manifest path, that record is removed,
exactly one removed event is emitted carrying the freed name and the
directory of the record, the name subsequently resolves to absent, and
every other name is untouched. -/
theorem handleUnlink_removes (reg : Registry) (filePath name : String)
    (sk : DiscoveredSkill)
    (hnodup : (List.map Prod.fst reg).Nodup)
    (hmem : (name, sk) ∈ reg)
    (hpath : sk.skillMdPath = filePath)
    (honly : ∀ e ∈ reg, e.2.skillMdPath = filePath → e = (name, sk))
    (hdir : sk.path = nodeDirname filePath) :
    (handleUnlink filePath reg).2 = [.removed name sk.path] ∧
    regGet (handleUnlink filePath reg).1 name = none ∧
    (∀ k, k ≠ name → regGet (handleUnlink filePath reg).1 k = regGet reg k) := by
  have hfind : List.find? (fun e => e.2.skillMdPath == filePath) reg = some (name, sk) :=
    find?_eq_some_of_mem_unique _ reg (name, sk) hmem (by simp [hpath])
      (fun y hy hpy => honly y hy (by simpa using hpy))
  refine ⟨?_, ?_, ?_⟩
  · simp only [handleUnlink, hfind, hdir]
  · simp only [handleUnlink, hfind]
    exact regGet_regDelete_self reg name hnodup
  · intro k hk
    simp only [handleUnlink, hfind]
    exact regGet_regDelete_other reg name k hk

/-- Concrete skill record used by the discovery witnesses. -/
def fooSkill : DiscoveredSkill :=
  { name := "foo"
    description := "demo"
    path := "/roots/foo"
    skillMdPath := "/roots/foo/SKILL.md"
    parsed := none }

/-- Concrete second skill record used by the discovery witnesses. -/
def barSkill : DiscoveredSkill :=
  { name := "bar"
    description := "other"
    path := "/roots/bar"
    skillMdPath := "/roots/bar/SKILL.md"
    parsed := none }

/-- Witness for claim C8: deleting the manifest of foo in a registry
holding foo and bar emits exactly one removed event for foo, makes foo
absent, and leaves bar resolvable. -/
theorem handleUnlink_removes_witness :
    (handleUnlink "/roots/foo/SKILL.md" [("foo", fooSkill), ("bar", barSkill)]).2 =
      [.removed "foo" fooSkill.path] ∧
    regGet (handleUnlink "/roots/foo/SKILL.md"
      [("foo", fooSkill), ("bar", barSkill)]).1 "foo" = none ∧
    (∀ k, k ≠ "foo" → regGet (handleUnlink "/roots/foo/SKILL.md"
      [("foo", fooSkill), ("bar", barSkill)]).1 k =
      regGet [("foo", fooSkill), ("bar", barSkill)] k) :=
  handleUnlink_removes [("foo", fooSkill), ("bar", barSkill)] "/roots/foo/SKILL.md"
    "foo" fooSkill (by decide) (by decide) (by decide) (by decide) (by decide)

/-- Claim C9: scanning emits one discovered event per successful
insertion, independent of the registry contents, so an insertion that
overwrites an existing name still emits discovered and never updated;
the updated event arises only on the watch path, where an added
manifest whose name already exists emits updated with the previous
record. -/
theorem scanPath_events (reg : Registry) (cands : List Candidate) :
    (scanPath reg cands).2 = cands.filterMap scanEventOf ∧
    (∀ skill : DiscoveredSkill, skill.name ≠ "" →
      (processCandidate reg (.found skill)).2 = [.discovered skill]) ∧
    (∀ (skill : DiscoveredSkill) (previous : DiscoveredSkill),
      skill.name ≠ "" → regGet reg skill.name = some previous →
      (handleAdd reg (.found skill)).2 = [.updated skill (some previous)]) := by
  refine ⟨?_, ?_, ?_⟩
  · induction cands generalizing reg with
    | nil => rfl
    | cons c rest ih =>
      cases c with
      | missing => simpa [scanPath, processCandidate, scanEventOf] using ih reg
      | failed msg => simpa [scanPath, processCandidate, scanEventOf] using ih _
      | found skill =>
        by_cases h : skill.name = ""
        · simpa [scanPath, processCandidate, scanEventOf, h] using ih reg
        · simpa [scanPath, processCandidate, scanEventOf, h] using ih _
  · intro skill hname
    simp [processCandidate, hname]
  · intro skill previous hname hprev
    simp [handleAdd, hname, hprev]

/-- Witness for claim C9: re-scanning a candidate whose name foo is
already registered emits discovered again, and the watch add handler
on the same situation emits updated with the previous record. -/
theorem scanPath_events_witness :
    (scanPath [("foo", fooSkill)] [.found fooSkill]).2 = [.discovered fooSkill] ∧
    (handleAdd [("foo", fooSkill)] (.found fooSkill)).2 =
      [.updated fooSkill (some fooSkill)] :=
  ⟨(scanPath_events [("foo", fooSkill)] [.found fooSkill]).2.1 fooSkill (by decide),
   (scanPath_events [("foo", fooSkill)] [.found fooSkill]).2.2 fooSkill fooSkill
     (by decide) (by decide)⟩

/-- Watcher state of the discovery engine: the registry together with
the optional active watcher handle. -/
structure DiscoveryState where
  skills : Registry
  watcher : Option Nat
deriving DecidableEq

/-- Embedding of watch from discovery.ts: a no-op while a watcher is
active, otherwise a fresh watcher is installed; the flag reports
whether a new watcher was started. -/
def watchOp (s : DiscoveryState) (w : Nat) : DiscoveryState × Bool :=
  match s.watcher with
  | some _ => (s, false)
  | none => ({ s with watcher := some w }, true)

/-- Embedding of close from discovery.ts: an active watcher is closed
and the handle reset to null; with no watcher the state is untouched. -/
def closeOp (s : DiscoveryState) : DiscoveryState :=
  match s.watcher with
  | some _ => { s with watcher := none }
  | none => s

/-- Claim C10: close always leaves the watcher null, is idempotent,
is the identity when never watching, and watching after a close always
starts a new watcher, so the closed state is not terminal. -/
theorem closeOp_resets_watcher (s : DiscoveryState) (w : Nat) :
    (closeOp s).watcher = none ∧
    closeOp (closeOp s) = closeOp s ∧
    (s.watcher = none → closeOp s = s) ∧
    watchOp (closeOp s) w = ({ closeOp s with watcher := some w }, true) := by
  obtain ⟨skills, watcher⟩ := s
  cases watcher <;> simp [closeOp, watchOp]

/-- Witness for claim C10: closing a never-watching state leaves it
unchanged, and a watch call after closing an active watcher starts a
new one. -/
theorem closeOp_resets_watcher_witness :
    closeOp ⟨[], none⟩ = (⟨[], none⟩ : DiscoveryState) ∧
    watchOp (closeOp ⟨[], some 3⟩) 7 = (⟨[], some 7⟩, true) :=
  ⟨(closeOp_resets_watcher ⟨[], none⟩ 7).2.2.1 rfl,
   (closeOp_resets_watcher ⟨[], some 3⟩ 7).2.2.2⟩

/-! ## Manifest parsing (parser.ts, parseSkillMd). The YAML and
markdown engines are third-party libraries, so their behaviour is
modelled from the specification: the first block delimited by
three-dash fences is the frontmatter map, everything after it is the
body, and headings, fenced code blocks and inline links are walked out
of the body with their one-indexed body line numbers. -/

/-- Split a character list at the first occurrence of a character,
dropping that occurrence. -/
def splitAtFirst (c : Char) (l : List Char) : Option (List Char × List Char) :=
  match l.findIdx? (fun x => x = c) with
  | some i => some (l.take i, l.drop (i + 1))
  | none => none

/-- Modelled from the spec: one flat key-value line of the
frontmatter map (the reference implementation delegates YAML parsing
to a third-party library not part of this repository). -/
def parseKVLine (line : String) : Option (String × String) :=
  match splitAtFirst ':' line.data with
  | some (k, v) => some (jsTrim ⟨k⟩, jsTrim ⟨v⟩)
  | none => none

/-- Modelled from the spec: the frontmatter splitter (delegated to the
third-party gray-matter library in the reference implementation). A
document whose first line is a three-dash fence with a later closing
fence line yields the key-value map between the fences and the body
after the closing fence; any other document yields an empty map and
the full text as body. -/
def matterSplit (content : String) : List (String × String) × String :=
  let lines := jsSplit '\n' content
  if lines.head? = some "---" then
    match (lines.drop 1).findIdx? (fun l => l == "---") with
    | some j =>
      (((lines.drop 1).take j).filterMap parseKVLine,
        String.intercalate "\n" (lines.drop (j + 2)))
    | none => ([], content)
  else ([], content)

/-- Whether a document carries a well-formed frontmatter block: an
opening fence on the first line and a closing fence later. -/
def hasFrontmatterFence (content : String) : Bool :=
  let lines := jsSplit '\n' content
  decide (lines.head? = some "---") &&
    ((lines.drop 1).findIdx? (fun l => l == "---")).isSome

/-- Lookup in the flat frontmatter map. -/
def lookupKV (data : List (String × String)) (k : String) : Option String :=
  (data.find? (fun e => e.1 == k)).map (fun e => e.2)

/-- Count of leading hash characters of a heading line. -/
def headingHashes (l : List Char) : Nat :=
  (l.takeWhile (fun c => c = '#')).length

/-- Modelled from the spec: the slug base of a heading text
(delegated to the third-party github-slugger in the reference
implementation): lower-cased with spaces turned into dashes and other
non-alphanumeric characters dropped. -/
def slugify (t : String) : String :=
  ⟨t.data.filterMap (fun c =>
    if ('a' ≤ c ∧ c ≤ 'z') ∨ ('0' ≤ c ∧ c ≤ '9') ∨ c = '-' then some c
    else if 'A' ≤ c ∧ c ≤ 'Z' then some (Char.ofNat (c.toNat + 32))
    else if c = ' ' then some '-' else none)⟩

/-- One step of the table of contents walk: an ATX heading line of
level one to six contributes an entry whose slug is disambiguated
against the already-seen slug bases by appending a dash and the next
count in first-seen order. -/
def tocStep (st : List TocEntry × List (String × Nat)) (p : Nat × String) :
    List TocEntry × List (String × Nat) :=
  let hashes := headingHashes p.2.data
  if 1 ≤ hashes ∧ hashes ≤ 6 ∧ (p.2.data.drop hashes).head? = some ' ' then
    let text := jsTrim ⟨p.2.data.drop hashes⟩
    let base := slugify text
    match st.2.find? (fun e => e.1 == base) with
    | some e =>
      (st.1 ++ [⟨(hashes : Int), text, base ++ "-" ++ toString e.2, (p.1 : Int) + 1⟩],
        st.2.map (fun e2 => if e2.1 == base then (e2.1, e2.2 + 1) else e2))
    | none =>
      (st.1 ++ [⟨(hashes : Int), text, base, (p.1 : Int) + 1⟩], (base, 1) :: st.2)
  else st

/-- Modelled from the spec: the heading outline of a body, with
one-indexed body line numbers. -/
def extractToc (body : String) : List TocEntry :=
  ((jsSplit '\n' body).enum.foldl tocStep ([], [])).1

/-- State of the code fence walk: finished blocks and the optionally
open fence with its info string, opening line and collected lines. -/
structure CBState where
  blocks : List CodeBlock
  fence : Option (Option String × Int × List String)
deriving DecidableEq, Repr

/-- One step of the fenced code block walk. -/
def cbStep (st : CBState) (p : Nat × String) : CBState :=
  match st.fence with
  | none =>
    if jsStartsWith p.2 "```" then
      let info := jsTrim ⟨p.2.data.drop 3⟩
      { st with fence := some ((if info = "" then none else some info),
          ((p.1 : Int) + 1), []) }
    else st
  | some (lang, ln, acc) =>
    if jsStartsWith p.2 "```" then
      { blocks := st.blocks ++ [⟨lang, ln, String.intercalate "\n" acc⟩]
        fence := none }
    else { st with fence := some (lang, ln, acc ++ [p.2]) }

/-- Modelled from the spec: the fenced code blocks of a body with
their opening-fence line numbers; an unterminated fence runs to the
end of the body. -/
def extractCodeBlocks (body : String) : List CodeBlock :=
  let final := (jsSplit '\n' body).enum.foldl cbStep ⟨[], none⟩
  match final.fence with
  | some (lang, ln, acc) =>
    final.blocks ++ [{ lang := lang, line := ln, content := String.intercalate "\n" acc }]
  | none => final.blocks

/-- Embedding of isInternalHref from parser.ts. -/
def isInternalHref (href : String) : Bool :=
  jsStartsWith href "references/" || jsStartsWith href "scripts/" ||
  jsStartsWith href "assets/" || jsStartsWith href "./references/" ||
  jsStartsWith href "./scripts/" || jsStartsWith href "./assets/"

/-- Modelled from the spec: inline link scan, fuelled by the input
length since each found link consumes at least one character. -/
def scanLinksAux : Nat → List Char → List Link
  | 0, _ => []
  | _ + 1, [] => []
  | fuel + 1, c :: rest =>
    if c = '[' then
      match splitAtFirst ']' rest with
      | some (txt, after) =>
        match after with
        | '(' :: after2 =>
          match splitAtFirst ')' after2 with
          | some (href, after3) =>
            { text := ⟨txt⟩, href := ⟨href⟩, isInternal := isInternalHref ⟨href⟩ } ::
              scanLinksAux fuel after3
          | none => scanLinksAux fuel rest
        | _ => scanLinksAux fuel rest
      | none => scanLinksAux fuel rest
    else scanLinksAux fuel rest

/-- Modelled from the spec: the inline links of a body. -/
def extractLinks (body : String) : List Link :=
  scanLinksAux body.data.length body.data

/-- Embedding of parseSkillMd from parser.ts over the modelled
frontmatter splitter and body walks: absent frontmatter keys default
to the empty string or to none, the body is the text after frontmatter
stripping, and the file lists start empty. -/
def parseSkillMd (content : String) : ParsedSkill :=
  let fm := matterSplit content
  { frontmatter :=
      { name := (lookupKV fm.1 "name").getD ""
        description := (lookupKV fm.1 "description").getD ""
        license := lookupKV fm.1 "license"
        version := lookupKV fm.1 "version"
        author := lookupKV fm.1 "author" }
    body := fm.2
    toc := extractToc fm.2
    codeBlocks := extractCodeBlocks fm.2
    links := extractLinks fm.2
    files := { scripts := [], references := [], assets := [] } }

/-- Claim C2: parsing is total by construction, and on any document
without a well-formed frontmatter block the name and description are
the empty string and the body is the whole input; the empty input
yields empty and zero fields throughout. -/
theorem parseSkillMd_total_defaults :
    (∀ content : String, hasFrontmatterFence content = false →
      (parseSkillMd content).frontmatter.name = "" ∧
      (parseSkillMd content).frontmatter.description = "" ∧
      (parseSkillMd content).body = content) ∧
    ((parseSkillMd "").frontmatter.name = "" ∧
     (parseSkillMd "").frontmatter.description = "" ∧
     (parseSkillMd "").body = "" ∧
     (parseSkillMd "").toc = [] ∧
     (parseSkillMd "").codeBlocks = [] ∧
     (parseSkillMd "").links = []) := by
  constructor
  · intro content h
    have hsplit : matterSplit content = ([], content) := by
      by_cases h1 : (jsSplit '\n' content).head? = some "---"
      · have h2 : (jsSplit '\n' content).tail.findIdx? (fun l => l == "---") = none := by
          cases hopt : (jsSplit '\n' content).tail.findIdx? (fun l => l == "---") with
          | none => rfl
          | some j =>
            exfalso
            simp only [hasFrontmatterFence, h1, List.drop_one, hopt] at h
            simp at h
        simp [matterSplit, h1, List.drop_one, h2]
      · simp [matterSplit, h1]
    simp [parseSkillMd, hsplit, lookupKV]
  · refine ⟨by decide, by decide, by decide, by decide, by decide, by decide⟩

/-- Witness for claim C2 at a concrete frontmatter-free document. -/
theorem parseSkillMd_total_defaults_witness :
    (parseSkillMd "# Just a Header\n\nSome content.").frontmatter.name = "" ∧
    (parseSkillMd "# Just a Header\n\nSome content.").frontmatter.description = "" ∧
    (parseSkillMd "# Just a Header\n\nSome content.").body =
      "# Just a Header\n\nSome content." :=
  parseSkillMd_total_defaults.1 "# Just a Header\n\nSome content." (by decide)

/-! ## Section extraction (resources.ts, extractSectionContent) -/

/-- Embedding of extractSectionContent from resources.ts: find the
outline entry matching the slug, then slice the body lines from the
heading line up to the line before the first later entry of the same
or shallower level, or to the end of the body, and trim the result;
a missing slug or an out-of-range heading line yields none. -/
def extractSectionContent (body slug : String) (toc : List TocEntry) : Option String :=
  match toc.find? (fun t => t.slug == slug) with
  | none => none
  | some entry =>
    let lines := jsSplit '\n' body
    let startLine := entry.line - 1
    if startLine < 0 ∨ (lines.length : Int) ≤ startLine then none
    else
      let endLine : Int :=
        match toc.find? (fun o =>
            decide (entry.line < o.line) && decide (o.level ≤ entry.level)) with
        | some o => o.line - 1
        | none => (lines.length : Int)
      some (jsTrim (String.intercalate "\n" (jsSliceList lines startLine endLine)))

/-- On a line-sorted outline, the entry found first is minimal in line
number among all entries satisfying the predicate. -/
lemma find?_min_line (toc : List TocEntry) (p : TocEntry → Bool) (o : TocEntry)
    (hs : toc.Pairwise (fun a b => a.line ≤ b.line))
    (h : toc.find? p = some o) :
    ∀ e ∈ toc, p e = true → o.line ≤ e.line := by
  induction toc with
  | nil => cases h
  | cons a rest ih =>
    by_cases hpa : p a = true
    · rw [List.find?_cons_of_pos _ hpa] at h
      cases h
      intro e he hpe
      rcases List.mem_cons.mp he with rfl | he2
      · exact le_refl _
      · exact (List.pairwise_cons.mp hs).1 e he2
    · rw [List.find?_cons_of_neg _ (by simpa using hpa)] at h
      have ih2 := ih (List.pairwise_cons.mp hs).2 h
      intro e he hpe
      rcases List.mem_cons.mp he with rfl | he2
      · exact absurd hpe hpa
      · exact ih2 e he2 hpe

/-- Claim C4: for a slug absent from the outline, extraction fails;
for a slug matched by an outline entry of a line-sorted outline whose
line lies inside the body, extraction returns the trimmed slice of the
body lines starting at the heading line and ending immediately before
the earliest later entry of the same or shallower level, or at the end
of the body when no such entry exists, so the next same-or-shallower
heading line is never included. -/
theorem extractSectionContent_spec (body slug : String) (toc : List TocEntry) :
    (toc.find? (fun t => t.slug == slug) = none →
      extractSectionContent body slug toc = none) ∧
    (∀ entry, toc.find? (fun t => t.slug == slug) = some entry →
      toc.Pairwise (fun a b => a.line ≤ b.line) →
      1 ≤ entry.line → entry.line ≤ ((jsSplit '\n' body).length : Int) →
      ∃ endLine : Int,
        extractSectionContent body slug toc =
          some (jsTrim (String.intercalate "\n"
            (jsSliceList (jsSplit '\n' body) (entry.line - 1) endLine))) ∧
        ((∃ nxt ∈ toc, entry.line < nxt.line ∧ nxt.level ≤ entry.level ∧
            endLine = nxt.line - 1 ∧
            (∀ o ∈ toc, entry.line < o.line → o.level ≤ entry.level →
              nxt.line ≤ o.line)) ∨
         ((∀ o ∈ toc, entry.line < o.line → o.level ≤ entry.level → False) ∧
           endLine = ((jsSplit '\n' body).length : Int)))) := by
  constructor
  · intro h
    simp [extractSectionContent, h]
  · intro entry hfind hsorted hlo hhi
    have hguard : ¬ (entry.line - 1 < 0 ∨
        ((jsSplit '\n' body).length : Int) ≤ entry.line - 1) := by omega
    cases hfind2 : toc.find? (fun o =>
        decide (entry.line < o.line) && decide (o.level ≤ entry.level)) with
    | some nxt =>
      refine ⟨nxt.line - 1, ?_, ?_⟩
      · simp only [extractSectionContent, hfind, hfind2]
        rw [if_neg hguard]
      · left
        have hmem : nxt ∈ toc := List.mem_of_find?_eq_some hfind2
        have hp := List.find?_some hfind2
        rw [Bool.and_eq_true, decide_eq_true_eq, decide_eq_true_eq] at hp
        refine ⟨nxt, hmem, hp.1, hp.2, rfl, ?_⟩
        intro o ho h1 h2
        exact find?_min_line toc _ nxt hsorted hfind2 o ho
          (by rw [Bool.and_eq_true, decide_eq_true_eq, decide_eq_true_eq]
              exact ⟨h1, h2⟩)
    | none =>
      refine ⟨((jsSplit '\n' body).length : Int), ?_, ?_⟩
      · simp only [extractSectionContent, hfind, hfind2]
        rw [if_neg hguard]
      · right
        refine ⟨?_, rfl⟩
        intro o ho h1 h2
        have := List.find?_eq_none.mp hfind2 o ho
        rw [Bool.and_eq_true, decide_eq_true_eq, decide_eq_true_eq] at this
        exact this ⟨h1, h2⟩

/-- Concrete body used by the C4 witness, from the specification
scenario with an Installation and a Usage section. -/
def demoSectionBody : String :=
  "## Installation\ninstall text\n## Usage\nusage text"

/-- Concrete outline used by the C4 witness. -/
def demoToc : List TocEntry :=
  [⟨2, "Installation", "installation", 1⟩, ⟨2, "Usage", "usage", 3⟩]

/-- Witness for claim C4: extracting the installation section of the
concrete document ends right before the Usage heading. -/
theorem extractSectionContent_spec_witness :
    ∃ endLine : Int,
      extractSectionContent demoSectionBody "installation" demoToc =
        some (jsTrim (String.intercalate "\n"
          (jsSliceList (jsSplit '\n' demoSectionBody)
            ((⟨2, "Installation", "installation", 1⟩ : TocEntry).line - 1) endLine))) ∧
      ((∃ nxt ∈ demoToc,
          (⟨2, "Installation", "installation", 1⟩ : TocEntry).line < nxt.line ∧
          nxt.level ≤ (⟨2, "Installation", "installation", 1⟩ : TocEntry).level ∧
          endLine = nxt.line - 1 ∧
          (∀ o ∈ demoToc,
            (⟨2, "Installation", "installation", 1⟩ : TocEntry).line < o.line →
            o.level ≤ (⟨2, "Installation", "installation", 1⟩ : TocEntry).level →
            nxt.line ≤ o.line)) ∨
       ((∀ o ∈ demoToc,
          (⟨2, "Installation", "installation", 1⟩ : TocEntry).line < o.line →
          o.level ≤ (⟨2, "Installation", "installation", 1⟩ : TocEntry).level → False) ∧
         endLine = ((jsSplit '\n' demoSectionBody).length : Int))) :=
  (extractSectionContent_spec demoSectionBody "installation" demoToc).2
    ⟨2, "Installation", "installation", 1⟩ (by decide) (by decide) (by decide) (by decide)

end Loadout
